import Mathlib

/-!
Shallow embedding of the MatrixR repository (`src/lib.rs`), a generic numeric
matrix container in Rust, together with proofs of the specification claims.

Modelling conventions:
* `Matrix α` mirrors `pub struct Matrix<T> { data: Vec<T>, row: usize, col: usize }`;
  `Vec<T>` becomes `List α` and `usize` becomes `ℕ`.
* Strings are modelled at the character level (`List Char`), matching the
  source's use of `&str`; the claim inputs are ASCII, where Rust's byte-level
  slicing coincides with character slicing.
* Element type `T` is instantiated at `ℤ`, modelling the integer
  instantiations exercised by the crate's tests (`i32`); integer parsing is
  modelled without the fixed-width range check, i.e. for in-range values.
* Rust panics (shape-mismatch `panic!()`, out-of-bounds `Vec` indexing, and
  `%` by zero on `usize`) are modelled by `Option`/`none`; parse errors by
  `Except ParseMatrixError`.
* `f64` is modelled by `F64`: an exact rational for finite values plus the
  IEEE special values produced by division by zero.  Finite arithmetic is
  exact in this model; every concrete division appearing in the claims
  (small integers divided by 2) is exactly representable in IEEE binary64,
  where the model agrees with `f64`.
-/

namespace MatrixR

/-- Embeds `pub struct Matrix<T> { data: Vec<T>, row: usize, col: usize }`.
`data` stores elements in row-major order. -/
structure Matrix (α : Type) where
  data : List α
  row : ℕ
  col : ℕ
deriving DecidableEq, Repr

/-- The storage invariant of the data model: `data.length == row * col`
(spec §3).  The Rust constructor does not enforce it, but every matrix built
by `new` with a correctly sized slice, by parsing, or by the arithmetic
operators satisfies it. -/
def Matrix.wf {α : Type} (m : Matrix α) : Prop :=
  m.data.length = m.row * m.col

instance {α : Type} (m : Matrix α) : Decidable m.wf := by
  unfold Matrix.wf; infer_instance

/-- Embeds `Matrix::new(row, col, values)`: copies the values verbatim,
without validating the length (the Rust code does not check it either). -/
def Matrix.new {α : Type} (row col : ℕ) (values : List α) : Matrix α :=
  ⟨values, row, col⟩

/-- Embeds `Matrix::shape`. -/
def Matrix.shape {α : Type} (m : Matrix α) : ℕ × ℕ :=
  (m.row, m.col)

/-- Embeds `Matrix::is_square`. -/
def Matrix.is_square {α : Type} (m : Matrix α) : Bool :=
  decide (m.row = m.col)

/-- The element at position `(i, j)`: linear offset `i * col + j`, as in the
`Index` impl `&self.data[index.0 * self.col + index.1]`.  (Total version used
in specifications; the operation embeddings below use checked access.) -/
def Matrix.entry (m : Matrix ℤ) (i j : ℕ) : ℤ :=
  m.data.getD (i * m.col + j) 0

/-- Sequences a list of checked element accesses into a `Vec` being built,
aborting at the first failure, as a sequence of Rust `Vec` index operations
inside a push loop would. -/
def optList : List (Option ℤ) → Option (List ℤ)
  | [] => some []
  | none :: _ => none
  | some a :: rest => (optList rest).map fun l => a :: l

/-- Embeds `Matrix::transposition`: pushes `self.data[j * self.col + i]` for
`i in 0..self.col`, `j in 0..self.row`.  The indexing may panic on a matrix
violating the storage invariant, hence the `Option`. -/
def Matrix.transposition (m : Matrix ℤ) : Option (Matrix ℤ) :=
  (optList ((List.range m.col).flatMap fun i =>
      (List.range m.row).map fun j => m.data[j * m.col + i]?)).map
    fun data => ⟨data, m.col, m.row⟩

/-- The `(i, j)` pairs visited by the `is_identity` double loop, in visit
order (`i in 0..row`, `j in 0..col`). -/
def idPairs (m : Matrix ℤ) : List (ℕ × ℕ) :=
  (List.range m.row).flatMap fun i => (List.range m.col).map fun j => (i, j)

/-- The body of the `is_identity` loop: walks the positions with a running
linear index `idx`, returning `false` at the first violating entry, `none` if
an access is out of bounds (Rust panic). -/
def isIdLoop (m : Matrix ℤ) : List (ℕ × ℕ) → ℕ → Option Bool
  | [], _ => some true
  | p :: rest, idx =>
    match m.data[idx]? with
    | none => none
    | some x =>
      if (p.1 = p.2 ∧ x ≠ 1) ∨ (p.1 ≠ p.2 ∧ x ≠ 0) then some false
      else isIdLoop m rest (idx + 1)

/-- Embeds `Matrix::is_identity` as generated by `impl_is_identity!` for the
integer types (`$zero = 0`, `$identity = 1`): false if not square, otherwise
scan all positions with the running index. -/
def Matrix.is_identity (m : Matrix ℤ) : Option Bool :=
  if m.is_square then isIdLoop m (idPairs m) 0 else some false

/-! ### Textual representation -/

/-- Decimal digits of `n`, most significant first, as characters
(the output of Rust's `Display` for an unsigned integer). -/
def natChars (n : ℕ) : List Char :=
  if n = 0 then ['0'] else (Nat.digits 10 n).reverse.map Nat.digitChar

/-- The output of Rust's `Display` for a signed integer value. -/
def intChars (x : ℤ) : List Char :=
  if x < 0 then '-' :: natChars x.natAbs else natChars x.natAbs

/-- The separator emitted after element `i` by the `Display` impl:
`[",", ";", ""][((i + 1) % self.col == 0) as usize + (i == self.data.len() - 1) as usize]`. -/
def sepChars (m : Matrix ℤ) (i : ℕ) : List Char :=
  [[','], [';'], []].getD
    ((if (i + 1) % m.col = 0 then 1 else 0) + (if i = m.data.length - 1 then 1 else 0)) []

/-- The element/separator sequence emitted by the `Display` loop from index
`i` on (`for i in 0..self.data.len()`). -/
def fmtBody (m : Matrix ℤ) (i : ℕ) : List Char :=
  if h : i < m.data.length then
    intChars (m.data.getD i 0) ++ sepChars m i ++ fmtBody m (i + 1)
  else []
termination_by m.data.length - i
decreasing_by omega

/-- Embeds the `fmt::Display` impl.  When `self.col == 0` and the data is
nonempty, the first loop iteration evaluates `(i + 1) % self.col`, and `%` by
zero on `usize` panics — modelled by `none`.  Otherwise the output is
`[` ++ body ++ `]`. -/
def Matrix.fmt (m : Matrix ℤ) : Option (List Char) :=
  if m.col = 0 ∧ m.data ≠ [] then none
  else some ('[' :: (fmtBody m 0 ++ [']']))

/-- Embeds `pub enum ParseMatrixError`. -/
inductive ParseMatrixError where
  | WrongBracketFormat
  | ColumnsNotAligned
  | ParseNumberError
deriving DecidableEq, Repr

/-- Whitespace as recognised by Rust's `str::trim` / `char::is_whitespace`
(restricted to the ASCII whitespace characters, which are the only ones the
claims exercise). -/
def isWs (c : Char) : Bool :=
  c.isWhitespace

/-- Embeds `str::trim`: removes leading and trailing whitespace. -/
def trim (s : List Char) : List Char :=
  ((s.dropWhile isWs).reverse.dropWhile isWs).reverse

/-- Embeds the element parse `element.trim().parse::<T>()` for an integer
`T`: an optional single `+`/`-` sign followed by one or more decimal digits
(modelled without the fixed-width overflow check). -/
def parseDigits (cs : List Char) : Option ℕ :=
  if cs ≠ [] ∧ cs.all Char.isDigit then
    some (cs.foldl (fun acc c => acc * 10 + (c.toNat - '0'.toNat)) 0)
  else none

/-- Integer parsing (`FromStr` for the integer types): an optional leading
`+`/`-` sign, then digits; empty input fails. -/
def parseInt (cs : List Char) : Option ℤ :=
  match cs with
  | [] => none
  | c :: rest =>
    if c = '+' then (parseDigits rest).map fun n => (n : ℤ)
    else if c = '-' then (parseDigits rest).map fun n => -(n : ℤ)
    else (parseDigits (c :: rest)).map fun n => (n : ℤ)

/-- Parses the comma-separated tokens of one row, left to right; the first
token that fails to parse aborts with `ParseNumberError`.  Mirrors the inner
`for element in row_elements` loop. -/
def parseElems : List (List Char) → Except ParseMatrixError (List ℤ)
  | [] => .ok []
  | e :: es =>
    match parseInt (trim e) with
    | some x =>
      match parseElems es with
      | .ok xs => .ok (x :: xs)
      | .error err => .error err
    | none => .error .ParseNumberError

/-- Processes the `;`-separated row strings in order, mirroring the
`for (idx, row_string) in s.split(';').enumerate()` loop: each row is split
on `,`, its element count compared against `ncol` (the first row's count —
for the first row itself the comparison is trivially true, matching the
`idx == 0` branch that merely records the count), and then its elements are
parsed in order. -/
def parseRows (ncol : ℕ) : List (List Char) → Except ParseMatrixError (List ℤ)
  | [] => .ok []
  | r :: rs =>
    if (r.splitOn ',').length ≠ ncol then .error .ColumnsNotAligned
    else
      match parseElems (r.splitOn ',') with
      | .error err => .error err
      | .ok xs =>
        match parseRows ncol rs with
        | .error err => .error err
        | .ok rest => .ok (xs ++ rest)

/-- The bracket check of `from_str`:
`s.len() < 2 || &s[0..1] != "[" || &s[(s.len() - 1)..s.len()] != "]"`
(on the already-trimmed input). -/
def bracketFail (t : List Char) : Prop :=
  t.length < 2 ∨ t.take 1 ≠ ['['] ∨ t.drop (t.length - 1) ≠ [']']

instance (t : List Char) : Decidable (bracketFail t) := by
  unfold bracketFail; infer_instance

/-- The bracket-stripped content `s[1..(s.len() - 1)]` of the trimmed input. -/
def content (t : List Char) : List Char :=
  (t.drop 1).take (t.length - 2)

/-- The `;`-separated row strings of the content. -/
def rowStrings (t : List Char) : List (List Char) :=
  (content t).splitOn ';'

/-- The element count of the first `;`-group, recorded as `num_col`. -/
def ncolOf (t : List Char) : ℕ :=
  (((rowStrings t).headD []).splitOn ',').length

/-- Embeds the `FromStr` impl: trim, check the bracket format, strip the
brackets, split on `;`, take the first group's element count as the column
count, and process the rows.  On success the row count is the number of
`;`-groups. -/
def fromStr (s : List Char) : Except ParseMatrixError (Matrix ℤ) :=
  let t := trim s
  if bracketFail t then .error .WrongBracketFormat
  else
    match parseRows (ncolOf t) (rowStrings t) with
    | .error e => .error e
    | .ok data => .ok ⟨data, (rowStrings t).length, ncolOf t⟩

/-! ### Arithmetic -/

/-- Embeds `Add for &Matrix<T>`: panics (`none`) unless the shapes agree,
otherwise zips the two data vectors elementwise. -/
def Matrix.add (x y : Matrix ℤ) : Option (Matrix ℤ) :=
  if x.row ≠ y.row ∨ x.col ≠ y.col then none
  else some ⟨List.zipWith (· + ·) x.data y.data, x.row, x.col⟩

/-- Embeds `Sub for &Matrix<T>`. -/
def Matrix.sub (x y : Matrix ℤ) : Option (Matrix ℤ) :=
  if x.row ≠ y.row ∨ x.col ≠ y.col then none
  else some ⟨List.zipWith (· - ·) x.data y.data, x.row, x.col⟩

/-- The seed of the multiplication inner loop:
`self.data[i * self.col] * rhs.data[j]`, with both accesses checked. -/
def mulSeed (x y : Matrix ℤ) (i j : ℕ) : Option ℤ :=
  (x.data[i * x.col]?).bind fun a => (y.data[j]?).map fun b => a * b

/-- One step of the accumulation loop `for k in 1..self.col`:
`data[i*rhs.col+j] + self.data[i*self.col+k] * rhs.data[k*rhs.col+j]`. -/
def mulStep (x y : Matrix ℤ) (i j : ℕ) (acc : Option ℤ) (k : ℕ) : Option ℤ :=
  acc.bind fun a => (x.data[i * x.col + k]?).bind fun b =>
    (y.data[k * y.col + j]?).map fun c => a + b * c

/-- The value pushed for output position `(i, j)`: the seed product for
`k = 0`, then the indices `1 .. self.col - 1` accumulated in increasing
order. -/
def mulEntry (x y : Matrix ℤ) (i j : ℕ) : Option ℤ :=
  (List.range' 1 (x.col - 1)).foldl (mulStep x y i j) (mulSeed x y i j)

/-- Embeds `Mul for &Matrix<T>` (matrix × matrix): panic (`none`) unless
`self.col == rhs.row`; otherwise the triple loop, which itself panics if an
element access is out of bounds. -/
def Matrix.mul (x y : Matrix ℤ) : Option (Matrix ℤ) :=
  if x.col = y.row then
    (optList ((List.range x.row).flatMap fun i =>
        (List.range y.col).map fun j => mulEntry x y i j)).map
      fun data => ⟨data, x.row, y.col⟩
  else none

/-- Model of IEEE-754 binary64 (`f64`): finite values are carried as exact
rationals, plus the special values produced by division by zero.  Finite
arithmetic in this model is exact; it agrees with `f64` whenever operands
and results are exactly representable, which holds for every concrete
division in this development. -/
inductive F64 where
  | finite : ℚ → F64
  | posInf
  | negInf
  | nan
deriving DecidableEq, Repr

/-- The conversion `T: Into<f64>` applied to an integer value (exact for
`i32`). -/
def toF64 (x : ℤ) : F64 :=
  .finite x

/-- `f64` division: a zero divisor yields NaN (for a zero dividend) or a
signed infinity, never a panic; nonzero finite division is exact in this
model. -/
def F64.div : F64 → F64 → F64
  | .finite a, .finite b =>
    if b = 0 then
      if a = 0 then .nan else if 0 < a then .posInf else .negInf
    else .finite (a / b)
  | _, _ => .nan

/-- Embeds `Div for &Matrix<T>` (matrix ÷ matrix): panics (`none`) unless
the shapes agree; otherwise converts both operands of every elementwise
division to `f64` first (`(*x.0).into() / (*x.1).into()`). -/
def Matrix.div (x y : Matrix ℤ) : Option (Matrix F64) :=
  if x.row ≠ y.row ∨ x.col ≠ y.col then none
  else some ⟨List.zipWith (fun a b => F64.div (toF64 a) (toF64 b)) x.data y.data, x.row, x.col⟩

/-- Embeds `Div<&T> for &Matrix<T>` (matrix ÷ scalar): no shape check, no
panic path — every element and the scalar are converted to `f64` and
divided. -/
def Matrix.divScalar (x : Matrix ℤ) (d : ℤ) : Matrix F64 :=
  ⟨x.data.map fun a => F64.div (toF64 a) (toF64 d), x.row, x.col⟩

/-! ### Proof-layer definitions (used in claim statements and proofs) -/

/-- The inner-loop accumulation value in pure form: seed `x[i,0] * y[0,j]`,
then `k = 1 .. x.col - 1` added in increasing order (the accumulation order
the spec requires). -/
def dotFold (x y : Matrix ℤ) (i j : ℕ) : ℤ :=
  (List.range' 1 (x.col - 1)).foldl (fun acc k => acc + x.entry i k * y.entry k j)
    (x.entry i 0 * y.entry 0 j)

/-- Row string `r` splits into exactly `ncol` comma-separated elements. -/
def rowAligned (ncol : ℕ) (r : List Char) : Prop :=
  (r.splitOn ',').length = ncol

/-- Every comma-separated token of `r` parses (after trimming). -/
def rowParses (r : List Char) : Prop :=
  ∀ e ∈ r.splitOn ',', (parseInt (trim e)).isSome

/-- The first failure when processing `rs` left to right (each row's
alignment checked before its tokens are parsed, as the claim describes) is
a column misalignment at row `k`. -/
def firstFailIsMisalign (ncol : ℕ) (rs : List (List Char)) (k : ℕ) : Prop :=
  ∃ hk : k < rs.length, ¬ rowAligned ncol (rs.get ⟨k, hk⟩) ∧
    ∀ k' (hk' : k' < rs.length), k' < k →
      rowAligned ncol (rs.get ⟨k', hk'⟩) ∧ rowParses (rs.get ⟨k', hk'⟩)

/-- The first failure when processing `rs` left to right is an unparseable
token: at position `t` of row `k`, with every earlier row aligned and fully
parsed, row `k` itself aligned, and every earlier token of row `k` parsed. -/
def firstFailIsToken (ncol : ℕ) (rs : List (List Char)) (k t : ℕ) : Prop :=
  ∃ hk : k < rs.length,
    (∀ k' (hk' : k' < rs.length), k' ≤ k → rowAligned ncol (rs.get ⟨k', hk'⟩)) ∧
    (∀ k' (hk' : k' < rs.length), k' < k → rowParses (rs.get ⟨k', hk'⟩)) ∧
    ∃ ht : t < ((rs.get ⟨k, hk⟩).splitOn ',').length,
      parseInt (trim (((rs.get ⟨k, hk⟩).splitOn ',').get ⟨t, ht⟩)) = none ∧
      ∀ t' (ht' : t' < ((rs.get ⟨k, hk⟩).splitOn ',').length), t' < t →
        (parseInt (trim (((rs.get ⟨k, hk⟩).splitOn ',').get ⟨t', ht'⟩))).isSome

instance (ncol : ℕ) (r : List Char) : Decidable (rowAligned ncol r) := by
  unfold rowAligned; infer_instance

instance (r : List Char) : Decidable (rowParses r) := by
  unfold rowParses; infer_instance

/-- Proof-layer description of separator-joined concatenation: the pieces
joined with `sep` between consecutive pieces and nothing at the ends. -/
def joinSep (sep : List Char) : List (List Char) → List Char
  | [] => []
  | [r] => r
  | r :: rs => r ++ sep ++ joinSep sep rs

/-- The canonical text of row `q` of `m`: its entries joined by `,`. -/
def rowChars (m : Matrix ℤ) (q : ℕ) : List Char :=
  joinSep [','] ((List.range m.col).map fun j => intChars (m.entry q j))

/-- The canonical body text of `m`: its rows joined by `;`. -/
def bodyChars (m : Matrix ℤ) : List Char :=
  joinSep [';'] ((List.range m.row).map fun q => rowChars m q)

/-! ### General-purpose helper lemmas -/

instance {ε α : Type} [DecidableEq ε] [DecidableEq α] : DecidableEq (Except ε α) := fun x y =>
  match x, y with
  | .ok a, .ok b =>
    if h : a = b then .isTrue (by rw [h]) else .isFalse fun hc => h (Except.ok.inj hc)
  | .error a, .error b =>
    if h : a = b then .isTrue (by rw [h]) else .isFalse fun hc => h (Except.error.inj hc)
  | .ok _, .error _ => .isFalse fun hc => Except.noConfusion hc
  | .error _, .ok _ => .isFalse fun hc => Except.noConfusion hc

theorem optList_map_some (l : List ℤ) : optList (l.map some) = some l := by
  induction l with
  | nil => rfl
  | cons a t ih => simp [optList, ih]

theorem getD_of_getElem? {l : List ℤ} {n : ℕ} {v : ℤ} (h : l[n]? = some v) :
    l.getD n 0 = v := by
  rw [List.getD_eq_getElem?_getD, h]; rfl

/-- Length of the row-major enumeration `(range R).flatMap fun i => (range C).map (f i)`. -/
theorem flatMapMap_length {α : Type} (R C : ℕ) (f : ℕ → ℕ → α) :
    ((List.range R).flatMap fun i => (List.range C).map (f i)).length = R * C := by
  induction R with
  | zero => simp
  | succ n ih =>
    rw [List.range_succ, List.flatMap_append, List.length_append, ih]
    simp [Nat.succ_mul]

/-- Element `(i, j)` of the row-major enumeration sits at linear index `i * C + j`. -/
theorem flatMapMap_getElem? {α : Type} {R C : ℕ} (f : ℕ → ℕ → α) {i j : ℕ}
    (hi : i < R) (hj : j < C) :
    ((List.range R).flatMap fun a => (List.range C).map (f a))[i * C + j]? = some (f i j) := by
  induction R with
  | zero => omega
  | succ n ih =>
    rw [List.range_succ, List.flatMap_append]
    rcases Nat.lt_or_ge i n with hlt | hge
    · rw [List.getElem?_append, if_pos]
      · exact ih hlt
      · rw [flatMapMap_length]
        calc i * C + j < i * C + C := by omega
          _ ≤ n * C := by nlinarith
    · have hieq : i = n := by omega
      subst hieq
      rw [List.getElem?_append_right (by rw [flatMapMap_length]; nlinarith)]
      rw [flatMapMap_length]
      simp only [List.flatMap_cons, List.flatMap_nil, List.append_nil]
      rw [show i * C + j - i * C = j by omega, List.getElem?_map, List.getElem?_range hj]
      rfl

theorem zipWith_add_sub (l₁ l₂ : List ℤ) (h : l₁.length = l₂.length) :
    List.zipWith (· - ·) (List.zipWith (· + ·) l₁ l₂) l₂ = l₁ := by
  induction l₁ generalizing l₂ with
  | nil => simp
  | cons a t ih =>
    cases l₂ with
    | nil => simp at h
    | cons b t₂ =>
      simp only [List.zipWith_cons_cons]
      rw [ih t₂ (by simpa using h)]
      simp

/-! ### Claim C8 -/

/-- C8: for any two matrices `a` and `b` of equal shape (satisfying the
storage invariant), adding `b` to `a` and then subtracting `b` returns a
matrix equal to `a`: `(a + b) - b == a`. -/
theorem C8_add_sub_cancel (a b : Matrix ℤ) (hwa : a.wf) (hwb : b.wf)
    (hr : a.row = b.row) (hc : a.col = b.col) :
    ∃ c, a.add b = some c ∧ c.sub b = some a := by
  refine ⟨⟨List.zipWith (· + ·) a.data b.data, a.row, a.col⟩, ?_, ?_⟩
  · unfold Matrix.add
    rw [if_neg (by simp [hr, hc])]
  · unfold Matrix.sub
    simp only
    rw [if_neg (by simp [hr, hc])]
    rw [zipWith_add_sub a.data b.data (by rw [hwa, hwb, hr, hc])]

/-- Witness for C8 at concrete matrices. -/
theorem C8_witness :
    ∃ c, Matrix.add ⟨[1, 2, 3, 4], 2, 2⟩ ⟨[5, 6, 7, 8], 2, 2⟩ = some c ∧
      Matrix.sub c ⟨[5, 6, 7, 8], 2, 2⟩ = some ⟨[1, 2, 3, 4], 2, 2⟩ :=
  C8_add_sub_cancel ⟨[1, 2, 3, 4], 2, 2⟩ ⟨[5, 6, 7, 8], 2, 2⟩ (by decide) (by decide) rfl rfl

/-! ### Claim C3 -/

/-- C3: matrix-by-matrix division (on equal shapes) and matrix-by-scalar
division always produce a floating-point-valued matrix (`Matrix F64`) of the
dividend's shape, converting both operands (`toF64`) before each elementwise
division; dividing `[[24,30,36],[51,66,81],[78,102,126]]` by the scalar 2
yields `[[12,15,18],[25.5,33,40.5],[39,51,63]]`. -/
theorem C3_div_promotes :
    (∀ x y : Matrix ℤ, x.wf → y.wf → x.row = y.row → x.col = y.col →
      ∃ r : Matrix F64, x.div y = some r ∧ r.row = x.row ∧ r.col = x.col ∧
        r.data.length = x.data.length ∧
        r.data = List.zipWith (fun a b => F64.div (toF64 a) (toF64 b)) x.data y.data) ∧
    (∀ (x : Matrix ℤ) (d : ℤ), (x.divScalar d).row = x.row ∧ (x.divScalar d).col = x.col ∧
      (x.divScalar d).data = (x.data.map fun a => F64.div (toF64 a) (toF64 d))) ∧
    Matrix.divScalar ⟨[24, 30, 36, 51, 66, 81, 78, 102, 126], 3, 3⟩ 2 =
      ⟨[F64.finite 12, F64.finite 15, F64.finite 18, F64.finite 25.5, F64.finite 33,
        F64.finite 40.5, F64.finite 39, F64.finite 51, F64.finite 63], 3, 3⟩ := by
  refine ⟨fun x y hwx hwy hr hc => ?_, fun x d => ⟨rfl, rfl, rfl⟩, ?_⟩
  · refine ⟨⟨List.zipWith (fun a b => F64.div (toF64 a) (toF64 b)) x.data y.data, x.row, x.col⟩,
      ?_, rfl, rfl, ?_, rfl⟩
    · unfold Matrix.div
      rw [if_neg (by simp [hr, hc])]
    · rw [List.length_zipWith, hwx, hwy, hr, hc]
      simp
  · simp only [Matrix.divScalar, toF64, F64.div, List.map, Matrix.mk.injEq, List.cons.injEq,
      F64.finite.injEq]
    norm_num

/-- Witness for C3 at concrete matrices. -/
theorem C3_witness :
    ∃ r : Matrix F64, Matrix.div ⟨[1, 2], 1, 2⟩ ⟨[2, 4], 1, 2⟩ = some r ∧
      r.row = 1 ∧ r.col = 2 ∧ r.data.length = 2 ∧
      r.data = List.zipWith (fun a b => F64.div (toF64 a) (toF64 b)) [1, 2] [2, 4] :=
  C3_div_promotes.1 ⟨[1, 2], 1, 2⟩ ⟨[2, 4], 1, 2⟩ (by decide) (by decide) rfl rfl

/-! ### Claim C10 -/

/-- C10: matrix-by-scalar division never aborts: for every matrix and every
scalar divisor, including zero, it returns a floating-point matrix of the
same shape whose entries are the `f64` quotients; a zero divisor produces
infinities or NaN entries, not a failure. -/
theorem C10_divScalar_never_aborts :
    (∀ (x : Matrix ℤ) (d : ℤ),
      (x.divScalar d).row = x.row ∧ (x.divScalar d).col = x.col ∧
      (x.divScalar d).data.length = x.data.length ∧
      ∀ i : ℕ, (x.divScalar d).data[i]? = (x.data[i]?).map fun a => F64.div (toF64 a) (toF64 d)) ∧
    Matrix.divScalar ⟨[1, 0, -2], 1, 3⟩ 0 = ⟨[F64.posInf, F64.nan, F64.negInf], 1, 3⟩ := by
  refine ⟨fun x d => ⟨rfl, rfl, by simp [Matrix.divScalar], fun i => ?_⟩, ?_⟩
  · simp [Matrix.divScalar, List.getElem?_map]
  · simp only [Matrix.divScalar, toF64, F64.div, List.map, Matrix.mk.injEq, List.cons.injEq]
    norm_num

/-! ### Claim C6 -/

/-- Unfolding equation for the `is_identity` loop when the access succeeds. -/
theorem isIdLoop_cons_some (m : Matrix ℤ) (p : ℕ × ℕ) (rest : List (ℕ × ℕ)) (idx : ℕ)
    (x : ℤ) (hx : m.data[idx]? = some x) :
    isIdLoop m (p :: rest) idx =
      if (p.1 = p.2 ∧ x ≠ 1) ∨ (p.1 ≠ p.2 ∧ x ≠ 0) then some false
      else isIdLoop m rest (idx + 1) := by
  rw [isIdLoop, hx]

/-- The `is_identity` scan computes the conjunction of the per-position
conditions, provided the running index stays in bounds and agrees with the
linear offsets of the visited positions. -/
theorem isIdLoop_eq (m : Matrix ℤ) (ps : List (ℕ × ℕ)) (idx : ℕ)
    (hrange : idx + ps.length ≤ m.data.length)
    (hsync : ∀ n (hn : n < ps.length),
      (ps.get ⟨n, hn⟩).1 * m.col + (ps.get ⟨n, hn⟩).2 = idx + n) :
    isIdLoop m ps idx =
      some (decide (∀ p ∈ ps,
        m.data.getD (p.1 * m.col + p.2) 0 = if p.1 = p.2 then 1 else 0)) := by
  induction ps generalizing idx with
  | nil => simp [isIdLoop]
  | cons p rest ih =>
    have hlen : idx < m.data.length := by simp at hrange; omega
    have hp : p.1 * m.col + p.2 = idx := by
      have h0 := hsync 0 (by simp)
      simpa using h0
    have hgetD : m.data.getD (p.1 * m.col + p.2) 0 = m.data[idx] := by
      rw [hp, List.getD_eq_getElem _ _ hlen]
    rw [isIdLoop_cons_some m p rest idx _ (List.getElem?_eq_getElem hlen)]
    by_cases hc : (p.1 = p.2 ∧ m.data[idx] ≠ 1) ∨ (p.1 ≠ p.2 ∧ m.data[idx] ≠ 0)
    · rw [if_pos hc]
      have hbad : ¬ (m.data.getD (p.1 * m.col + p.2) 0 = if p.1 = p.2 then 1 else 0) := by
        rw [hgetD]
        rcases hc with ⟨he, hne⟩ | ⟨he, hne⟩
        · simpa [he] using hne
        · simpa [he] using hne
      have hall : ¬ (∀ q ∈ p :: rest,
          m.data.getD (q.1 * m.col + q.2) 0 = if q.1 = q.2 then 1 else 0) :=
        fun hall => hbad (hall p (List.mem_cons_self p rest))
      rw [decide_eq_false hall]
    · rw [if_neg hc]
      push_neg at hc
      have hgood : m.data.getD (p.1 * m.col + p.2) 0 = if p.1 = p.2 then 1 else 0 := by
        rw [hgetD]
        by_cases he : p.1 = p.2
        · simpa [he] using hc.1 he
        · simpa [he] using hc.2 he
      rw [ih (idx + 1) (by simp at hrange ⊢; omega) (fun n hn => by
        have hs := hsync (n + 1) (by simp; omega)
        rw [List.get_cons_succ] at hs
        omega)]
      simp only [Option.some.injEq, decide_eq_decide, List.forall_mem_cons, hgood, true_and]

/-- C6: `is_identity()` returns true iff the matrix is square and every
diagonal entry equals 1 (the multiplicative identity) and every off-diagonal
entry equals 0 (the additive identity); every non-square matrix reports
false. -/
theorem C6_is_identity (m : Matrix ℤ) (hw : m.wf) :
    ∃ b, m.is_identity = some b ∧
      (b = true ↔ m.row = m.col ∧
        ∀ i < m.row, ∀ j < m.col, m.entry i j = if i = j then 1 else 0) := by
  by_cases hsq : m.row = m.col
  · have hsq' : m.is_square = true := by simp [Matrix.is_square, hsq]
    rw [Matrix.is_identity, if_pos hsq']
    have hlen : (idPairs m).length = m.row * m.col := flatMapMap_length _ _ _
    have hsync : ∀ n (hn : n < (idPairs m).length),
        ((idPairs m).get ⟨n, hn⟩).1 * m.col + ((idPairs m).get ⟨n, hn⟩).2 = 0 + n := by
      intro n hn
      rcases Nat.eq_zero_or_pos m.col with hc0 | hcpos
      · exfalso
        rw [hlen, hc0] at hn
        simp at hn
      · have hnlt : n < m.row * m.col := by rwa [hlen] at hn
        have hi : n / m.col < m.row := (Nat.div_lt_iff_lt_mul hcpos).mpr hnlt
        have heq : n / m.col * m.col + n % m.col = n := by
          rw [Nat.mul_comm]
          exact Nat.div_add_mod n m.col
        have hget : (idPairs m)[n]? = some (n / m.col, n % m.col) := by
          have hx := flatMapMap_getElem? (R := m.row) (C := m.col)
            (fun i j => (i, j)) hi (Nat.mod_lt n hcpos)
          rwa [heq] at hx
        have h1 : (idPairs m)[n]? = some ((idPairs m).get ⟨n, hn⟩) := by
          rw [List.getElem?_eq_getElem hn, List.get_eq_getElem]
        rw [hget] at h1
        have h2 := (Option.some.inj h1).symm
        rw [h2]
        simpa using heq
    rw [isIdLoop_eq m (idPairs m) 0 (by rw [hlen, ← hw]; omega) hsync]
    refine ⟨_, rfl, ?_⟩
    simp only [decide_eq_true_eq]
    constructor
    · intro hall
      refine ⟨hsq, fun i hi j hj => ?_⟩
      have hmem : (i, j) ∈ idPairs m := by
        simp only [idPairs, List.mem_flatMap, List.mem_map, List.mem_range]
        exact ⟨i, hi, j, hj, rfl⟩
      exact hall (i, j) hmem
    · rintro ⟨-, hall⟩ p hp
      simp only [idPairs, List.mem_flatMap, List.mem_map, List.mem_range] at hp
      obtain ⟨i, hi, j, hj, rfl⟩ := hp
      exact hall i hi j hj
  · have hsq' : m.is_square = false := by simp [Matrix.is_square, hsq]
    rw [Matrix.is_identity, hsq']
    exact ⟨false, by simp, by simp [hsq]⟩

/-- Witness for C6 at the concrete 2×2 identity matrix. -/
theorem C6_witness :
    ∃ b, Matrix.is_identity ⟨[1, 0, 0, 1], 2, 2⟩ = some b ∧
      (b = true ↔ (2 : ℕ) = 2 ∧ ∀ i < 2, ∀ j < 2,
        Matrix.entry ⟨[1, 0, 0, 1], 2, 2⟩ i j = if i = j then 1 else 0) :=
  C6_is_identity ⟨[1, 0, 0, 1], 2, 2⟩ (by decide)

/-! ### Claim C7 -/

/-- C7: transposition produces a new matrix of shape `(col, row)` in which
output element `(i, j)` equals input element `(j, i)`; it always succeeds on
matrices satisfying the storage invariant (and, being a pure function of its
argument, never mutates the input). -/
theorem C7_transposition (m : Matrix ℤ) (hw : m.wf) :
    ∃ t, m.transposition = some t ∧ t.row = m.col ∧ t.col = m.row ∧ t.wf ∧
      ∀ i < m.col, ∀ j < m.row, t.entry i j = m.entry j i := by
  have hidx : ∀ i < m.col, ∀ j < m.row, j * m.col + i < m.data.length := by
    intro i hi j hj
    rw [hw]
    have h1 : (j + 1) * m.col = j * m.col + m.col := by ring
    have h2 : (j + 1) * m.col ≤ m.row * m.col := Nat.mul_le_mul_right _ hj
    omega
  have hrw : ((List.range m.col).flatMap fun i =>
      (List.range m.row).map fun j => m.data[j * m.col + i]?) =
      ((List.range m.col).flatMap fun i =>
        (List.range m.row).map fun j => m.data.getD (j * m.col + i) 0).map some := by
    rw [List.map_flatMap]
    refine List.flatMap_congr fun i hi => ?_
    rw [List.map_map]
    refine List.map_congr_left fun j hj => ?_
    simp only [List.mem_range] at hi hj
    have h := hidx i hi j hj
    simp only [Function.comp]
    rw [List.getElem?_eq_getElem h, List.getD_eq_getElem _ _ h]
  refine ⟨⟨(List.range m.col).flatMap fun i =>
      (List.range m.row).map fun j => m.data.getD (j * m.col + i) 0, m.col, m.row⟩, ?_,
    rfl, rfl, ?_, ?_⟩
  · rw [Matrix.transposition, hrw, optList_map_some]
    rfl
  · show (_ : List ℤ).length = m.col * m.row
    exact flatMapMap_length _ _ _
  · intro i hi j hj
    show (_ : List ℤ).getD (i * m.row + j) 0 = m.entry j i
    exact getD_of_getElem? (flatMapMap_getElem?
      (fun i j => m.data.getD (j * m.col + i) 0) hi hj)

/-- Witness for C7 at the concrete 2×3 matrix of the crate's tests. -/
theorem C7_witness :
    ∃ t, Matrix.transposition ⟨[-2, -1, 0, 1, 2, 3], 2, 3⟩ = some t ∧
      t.row = 3 ∧ t.col = 2 ∧ t.wf ∧
      ∀ i < 3, ∀ j < 2, t.entry i j = Matrix.entry ⟨[-2, -1, 0, 1, 2, 3], 2, 3⟩ j i :=
  C7_transposition ⟨[-2, -1, 0, 1, 2, 3], 2, 3⟩ (by decide)

/-! ### Claims C2 and C4: multiplication and shape errors -/

theorem idx_lt {i j r c : ℕ} (hi : i < r) (hj : j < c) : i * c + j < r * c := by
  have h1 : (i + 1) * c = i * c + c := by ring
  have h2 : (i + 1) * c ≤ r * c := Nat.mul_le_mul_right _ hi
  omega

theorem foldl_range'_add (g : ℕ → ℤ) (a : ℤ) (n : ℕ) :
    (List.range' 1 n).foldl (fun acc k => acc + g k) a =
      a + ∑ k ∈ Finset.range n, g (k + 1) := by
  induction n with
  | zero => simp
  | succ n ih =>
    rw [List.range'_concat, List.foldl_append, ih]
    have h1n : 1 + 1 * n = n + 1 := by omega
    rw [List.foldl_cons, List.foldl_nil, h1n, Finset.sum_range_succ]
    ring

/-- The loop accumulation computes the mathematical dot product over the
shared dimension, provided that dimension is nonzero. -/
theorem dotFold_eq_sum (x y : Matrix ℤ) (hc : 1 ≤ x.col) (i j : ℕ) :
    dotFold x y i j = ∑ k ∈ Finset.range x.col, x.entry i k * y.entry k j := by
  rw [dotFold, foldl_range'_add]
  obtain ⟨c, hc'⟩ : ∃ c, x.col = c + 1 := ⟨x.col - 1, by omega⟩
  rw [hc', Finset.sum_range_succ', Nat.add_sub_cancel]
  ring

theorem foldl_mulStep_some (x y : Matrix ℤ) (i j : ℕ) (ks : List ℕ)
    (hks : ∀ k ∈ ks, i * x.col + k < x.data.length ∧ k * y.col + j < y.data.length)
    (a : ℤ) :
    ks.foldl (mulStep x y i j) (some a) =
      some (ks.foldl (fun acc k => acc + x.entry i k * y.entry k j) a) := by
  induction ks generalizing a with
  | nil => rfl
  | cons k ks ih =>
    obtain ⟨hx, hy⟩ := hks k (List.mem_cons_self k ks)
    have hstep : mulStep x y i j (some a) k = some (a + x.entry i k * y.entry k j) := by
      rw [mulStep]
      have e1 : x.entry i k = x.data[i * x.col + k] := List.getD_eq_getElem _ _ hx
      have e2 : y.entry k j = y.data[k * y.col + j] := List.getD_eq_getElem _ _ hy
      rw [List.getElem?_eq_getElem hx, List.getElem?_eq_getElem hy, e1, e2]
      rfl
    rw [List.foldl_cons, List.foldl_cons, hstep]
    exact ih (fun k hk => hks k (List.mem_cons_of_mem _ hk)) _

/-- When both operands satisfy the storage invariant, the shapes are
compatible and the shared dimension is nonzero, every access of the inner
loop is in bounds and the pushed value is the pure accumulation. -/
theorem mulEntry_eq_some (x y : Matrix ℤ) (hwx : x.wf) (hwy : y.wf) (hcr : x.col = y.row)
    (hc : 1 ≤ x.col) {i j : ℕ} (hi : i < x.row) (hj : j < y.col) :
    mulEntry x y i j = some (dotFold x y i j) := by
  have hseedx : i * x.col < x.data.length := by
    rw [hwx]
    have := idx_lt hi hc
    omega
  have hseedy : j < y.data.length := by
    rw [hwy]
    have h0 := idx_lt (show 0 < y.row by omega) hj
    simpa using h0
  have hseed : mulSeed x y i j = some (x.entry i 0 * y.entry 0 j) := by
    have e1 : x.entry i 0 = x.data[i * x.col] := by
      rw [Matrix.entry, Nat.add_zero, List.getD_eq_getElem _ _ hseedx]
    have e2 : y.entry 0 j = y.data[j] := by
      rw [Matrix.entry, show 0 * y.col + j = j by simp, List.getD_eq_getElem _ _ hseedy]
    rw [mulSeed, List.getElem?_eq_getElem hseedx, List.getElem?_eq_getElem hseedy, e1, e2]
    rfl
  rw [mulEntry, hseed, foldl_mulStep_some x y i j _ ?bounds _]
  · rfl
  case bounds =>
    intro k hk
    rw [List.mem_range'_1] at hk
    have hkc : k < x.col := by omega
    refine ⟨by rw [hwx]; exact idx_lt hi hkc, by rw [hwy]; exact idx_lt (by omega) hj⟩

/-- Under the same hypotheses the whole multiplication succeeds, producing
the row-major table of accumulated dot products. -/
theorem mul_eq_some (x y : Matrix ℤ) (hwx : x.wf) (hwy : y.wf) (hcr : x.col = y.row)
    (hc : 1 ≤ x.col) :
    x.mul y = some ⟨(List.range x.row).flatMap fun i =>
      (List.range y.col).map fun j => dotFold x y i j, x.row, y.col⟩ := by
  rw [Matrix.mul, if_pos hcr]
  have hrw : ((List.range x.row).flatMap fun i =>
      (List.range y.col).map fun j => mulEntry x y i j) =
      ((List.range x.row).flatMap fun i =>
        (List.range y.col).map fun j => dotFold x y i j).map some := by
    rw [List.map_flatMap]
    refine List.flatMap_congr fun i hi => ?_
    rw [List.map_map]
    refine List.map_congr_left fun j hj => ?_
    simp only [List.mem_range] at hi hj
    simp only [Function.comp]
    exact mulEntry_eq_some x y hwx hwy hcr hc hi hj
  rw [hrw, optList_map_some]
  rfl

/-- C2 (amended: the shared dimension must additionally be nonzero, see
`C2_counterexample`): for all matrices `x`, `y` satisfying the storage
invariant with `x.col = y.row ≥ 1`, `x * y` succeeds and is the standard
algebraic matrix product — shape `(x.row, y.col)`, element `(i, j)` the dot
product of row `i` of `x` with column `j` of `y`, accumulated with the
index-0 product as seed and indices `1..k` added in increasing order
(`dotFold`); in particular the concrete 3×3 example of the spec holds. -/
theorem C2_mul_standard_product :
    (∀ x y : Matrix ℤ, x.wf → y.wf → x.col = y.row → 1 ≤ x.col →
      ∃ m, x.mul y = some m ∧ m.row = x.row ∧ m.col = y.col ∧ m.wf ∧
        ∀ i < x.row, ∀ j < y.col,
          m.entry i j = dotFold x y i j ∧
          m.entry i j = ∑ k ∈ Finset.range x.col, x.entry i k * y.entry k j) ∧
    Matrix.mul ⟨[1, 2, 3, 4, 5, 6, 7, 8, 9], 3, 3⟩ ⟨[0, 1, 2, 3, 4, 5, 6, 7, 8], 3, 3⟩ =
      some ⟨[24, 30, 36, 51, 66, 81, 78, 102, 126], 3, 3⟩ := by
  constructor
  · intro x y hwx hwy hcr hc
    refine ⟨_, mul_eq_some x y hwx hwy hcr hc, rfl, rfl, ?_, ?_⟩
    · show (_ : List ℤ).length = x.row * y.col
      exact flatMapMap_length _ _ _
    · intro i hi j hj
      have he : Matrix.entry ⟨(List.range x.row).flatMap fun i =>
          (List.range y.col).map fun j => dotFold x y i j, x.row, y.col⟩ i j =
          dotFold x y i j :=
        getD_of_getElem? (flatMapMap_getElem? (dotFold x y) hi hj)
      exact ⟨he, he.trans (dotFold_eq_sum x y hc i j)⟩
  · decide

/-- C2 counterexample: the well-formed matrices `x` (1×0) and `y` (0×1)
satisfy `x.col = y.row`, but the multiplication panics (out-of-bounds seed
access `self.data[i * self.col]`) instead of returning the 1×1 standard
product. -/
theorem C2_counterexample :
    (Matrix.mk ([] : List ℤ) 1 0).wf ∧ (Matrix.mk ([] : List ℤ) 0 1).wf ∧
    (Matrix.mk ([] : List ℤ) 1 0).col = (Matrix.mk ([] : List ℤ) 0 1).row ∧
    Matrix.mul (Matrix.mk ([] : List ℤ) 1 0) (Matrix.mk ([] : List ℤ) 0 1) = none := by
  decide

/-- Witness for C2 at concrete 2×2 matrices. -/
theorem C2_witness :
    ∃ m, Matrix.mul ⟨[1, 2, 3, 4], 2, 2⟩ ⟨[5, 6, 7, 8], 2, 2⟩ = some m ∧
      m.row = 2 ∧ m.col = 2 ∧ m.wf ∧
      ∀ i < 2, ∀ j < 2,
        m.entry i j = dotFold ⟨[1, 2, 3, 4], 2, 2⟩ ⟨[5, 6, 7, 8], 2, 2⟩ i j ∧
        m.entry i j = ∑ k ∈ Finset.range 2,
          Matrix.entry ⟨[1, 2, 3, 4], 2, 2⟩ i k * Matrix.entry ⟨[5, 6, 7, 8], 2, 2⟩ k j :=
  C2_mul_standard_product.1 ⟨[1, 2, 3, 4], 2, 2⟩ ⟨[5, 6, 7, 8], 2, 2⟩
    (by decide) (by decide) rfl (by decide)

/-- C4 (amended: the multiplication clause needs an exception for a zero
shared dimension, see `C4_counterexample`): on matrices satisfying the
storage invariant, add, subtract and matrix-by-matrix divide abort exactly
when the operands' `(row, col)` shapes differ; matrix multiply aborts
exactly when `x.col ≠ y.row`, or when `x.col = y.row = 0` while both result
dimensions are nonzero (the seed access is then out of bounds).  All these
failures are returned by the call itself (synchronously). -/
theorem C4_shape_errors (x y : Matrix ℤ) (hwx : x.wf) (hwy : y.wf) :
    (x.add y = none ↔ ¬(x.row = y.row ∧ x.col = y.col)) ∧
    (x.sub y = none ↔ ¬(x.row = y.row ∧ x.col = y.col)) ∧
    (x.div y = none ↔ ¬(x.row = y.row ∧ x.col = y.col)) ∧
    (x.mul y = none ↔ (x.col ≠ y.row ∨ (x.col = 0 ∧ 0 < x.row ∧ 0 < y.col))) := by
  have hshape : ∀ {β : Type} (v : Matrix β),
      (if x.row ≠ y.row ∨ x.col ≠ y.col then none else some v) = none ↔
        ¬(x.row = y.row ∧ x.col = y.col) := by
    intro β v
    rcases Decidable.em (x.row = y.row ∧ x.col = y.col) with hs | hs
    · rw [if_neg (by tauto)]
      simp [hs]
    · rw [if_pos (by tauto)]
      simp [hs]
  refine ⟨hshape _, hshape _, hshape _, ?_⟩
  by_cases hcr : x.col = y.row
  · by_cases hc1 : 1 ≤ x.col
    · rw [mul_eq_some x y hwx hwy hcr hc1]
      constructor
      · intro h
        exact Option.noConfusion h
      · rintro (h | ⟨h0, -⟩)
        · exact absurd hcr h
        · omega
    · have hc0 : x.col = 0 := by omega
      by_cases hdeg : 0 < x.row ∧ 0 < y.col
      · obtain ⟨hr, hcc⟩ := hdeg
        have hxdata : x.data = [] := by
          have hl := hwx
          rw [Matrix.wf, hc0, Nat.mul_zero] at hl
          exact List.eq_nil_of_length_eq_zero hl
        have hentry : mulEntry x y 0 0 = none := by
          rw [mulEntry, hc0]
          simp [mulSeed, hxdata]
        have hnone : optList ((List.range x.row).flatMap fun i =>
            (List.range y.col).map fun j => mulEntry x y i j) = none := by
          obtain ⟨r, hr'⟩ : ∃ r, x.row = r + 1 := ⟨x.row - 1, by omega⟩
          obtain ⟨cc, hcc'⟩ : ∃ cc, y.col = cc + 1 := ⟨y.col - 1, by omega⟩
          rw [hr', hcc', List.range_succ_eq_map, List.flatMap_cons,
            List.range_succ_eq_map, List.map_cons, hentry, List.cons_append]
          rfl
        rw [Matrix.mul, if_pos hcr, hnone]
        simp [hc0, hr, hcc]
      · have hL : ((List.range x.row).flatMap fun i =>
            (List.range y.col).map fun j => mulEntry x y i j) = [] := by
          rcases (by omega : x.row = 0 ∨ y.col = 0) with h | h <;> simp [h]
        rw [Matrix.mul, if_pos hcr, hL]
        constructor
        · intro h
          exact Option.noConfusion h
        · rintro (h | ⟨-, h2, h3⟩)
          · exact absurd hcr h
          · exact absurd ⟨h2, h3⟩ hdeg
  · rw [Matrix.mul, if_neg hcr]
    simp [hcr]

/-- C4 counterexample: a well-formed 2×0 matrix times a well-formed 0×3
matrix has matching inner dimension (`left.col = right.row = 0`), yet the
multiplication aborts, contradicting "multiply aborts if and only if
`left.col != right.row`". -/
theorem C4_counterexample :
    (Matrix.mk ([] : List ℤ) 2 0).wf ∧ (Matrix.mk ([] : List ℤ) 0 3).wf ∧
    (Matrix.mk ([] : List ℤ) 2 0).col = (Matrix.mk ([] : List ℤ) 0 3).row ∧
    Matrix.mul (Matrix.mk ([] : List ℤ) 2 0) (Matrix.mk ([] : List ℤ) 0 3) = none := by
  decide

/-- Witness for C4 at concrete matrices of different shapes. -/
theorem C4_witness :
    (Matrix.add ⟨[1, 2], 1, 2⟩ ⟨[3, 4], 2, 1⟩ = none ↔ ¬((1 : ℕ) = 2 ∧ (2 : ℕ) = 1)) ∧
    (Matrix.sub ⟨[1, 2], 1, 2⟩ ⟨[3, 4], 2, 1⟩ = none ↔ ¬((1 : ℕ) = 2 ∧ (2 : ℕ) = 1)) ∧
    (Matrix.div ⟨[1, 2], 1, 2⟩ ⟨[3, 4], 2, 1⟩ = none ↔ ¬((1 : ℕ) = 2 ∧ (2 : ℕ) = 1)) ∧
    (Matrix.mul ⟨[1, 2], 1, 2⟩ ⟨[3, 4], 2, 1⟩ = none ↔
      ((2 : ℕ) ≠ 2 ∨ ((2 : ℕ) = 0 ∧ (0 : ℕ) < 1 ∧ (0 : ℕ) < 1))) :=
  C4_shape_errors ⟨[1, 2], 1, 2⟩ ⟨[3, 4], 2, 1⟩ (by decide) (by decide)

/-! ### Parsing characterization (claims C5 and C9) -/

theorem parseElems_cons_none {e : List Char} {es : List (List Char)}
    (h : parseInt (trim e) = none) :
    parseElems (e :: es) = .error .ParseNumberError := by
  rw [parseElems, h]

theorem parseElems_cons_some {e : List Char} {es : List (List Char)} {x : ℤ}
    (h : parseInt (trim e) = some x) :
    parseElems (e :: es) = (match parseElems es with
      | .ok xs => .ok (x :: xs)
      | .error err => .error err) := by
  rw [parseElems, h]

theorem parseRows_cons_misaligned {ncol : ℕ} {r : List Char} {rs : List (List Char)}
    (h : (r.splitOn ',').length ≠ ncol) :
    parseRows ncol (r :: rs) = .error .ColumnsNotAligned := by
  rw [parseRows, if_pos h]

theorem parseRows_cons_aligned {ncol : ℕ} {r : List Char} {rs : List (List Char)}
    (h : (r.splitOn ',').length = ncol) :
    parseRows ncol (r :: rs) = (match parseElems (r.splitOn ',') with
      | .error err => .error err
      | .ok xs =>
        match parseRows ncol rs with
        | .error err => .error err
        | .ok rest => .ok (xs ++ rest)) := by
  rw [parseRows, if_neg (by simp [h])]

theorem parseElems_error_eq {ts : List (List Char)} {err : ParseMatrixError}
    (h : parseElems ts = .error err) : err = .ParseNumberError := by
  induction ts with
  | nil => cases h
  | cons e es ih =>
    cases hpe : parseInt (trim e) with
    | none =>
      rw [parseElems_cons_none hpe] at h
      exact (Except.error.inj h).symm
    | some x =>
      rw [parseElems_cons_some hpe] at h
      cases hrec : parseElems es with
      | error err2 =>
        rw [hrec] at h
        cases h
        exact ih hrec
      | ok xs =>
        rw [hrec] at h
        cases h

theorem parseElems_ok_length {ts : List (List Char)} {vs : List ℤ}
    (h : parseElems ts = .ok vs) : vs.length = ts.length := by
  induction ts generalizing vs with
  | nil =>
    cases h
    rfl
  | cons e es ih =>
    cases hpe : parseInt (trim e) with
    | none =>
      rw [parseElems_cons_none hpe] at h
      cases h
    | some x =>
      rw [parseElems_cons_some hpe] at h
      cases hrec : parseElems es with
      | error err2 =>
        rw [hrec] at h
        cases h
      | ok xs =>
        rw [hrec] at h
        cases h
        simp [ih hrec]

theorem parseElems_ok_iff (ts : List (List Char)) :
    (∃ vs, parseElems ts = .ok vs) ↔ ∀ e ∈ ts, (parseInt (trim e)).isSome := by
  induction ts with
  | nil => simp [parseElems]
  | cons e es ih =>
    rw [List.forall_mem_cons]
    constructor
    · rintro ⟨vs, hvs⟩
      cases hpe : parseInt (trim e) with
      | none =>
        rw [parseElems_cons_none hpe] at hvs
        cases hvs
      | some x =>
        rw [parseElems_cons_some hpe] at hvs
        refine ⟨by simp [hpe], ?_⟩
        cases hrec : parseElems es with
        | error err2 =>
          rw [hrec] at hvs
          cases hvs
        | ok xs => exact ih.mp ⟨xs, hrec⟩
    · rintro ⟨he, hes⟩
      obtain ⟨x, hx⟩ := Option.isSome_iff_exists.mp he
      obtain ⟨vs, hvs⟩ := ih.mpr hes
      exact ⟨x :: vs, by rw [parseElems_cons_some hx, hvs]⟩

theorem parseElems_error_first {ts : List (List Char)}
    (h : parseElems ts = .error .ParseNumberError) :
    ∃ t, ∃ ht : t < ts.length, parseInt (trim (ts.get ⟨t, ht⟩)) = none ∧
      ∀ t' (ht' : t' < ts.length), t' < t → (parseInt (trim (ts.get ⟨t', ht'⟩))).isSome := by
  induction ts with
  | nil => cases h
  | cons e es ih =>
    cases hpe : parseInt (trim e) with
    | none =>
      refine ⟨0, by simp, by simpa using hpe, ?_⟩
      intro t' ht' hlt
      omega
    | some x =>
      rw [parseElems_cons_some hpe] at h
      cases hrec : parseElems es with
      | error err2 =>
        rw [hrec] at h
        cases h
        obtain ⟨t, ht, hnone, hprev⟩ := ih hrec
        refine ⟨t + 1, by simp; omega, by rw [List.get_cons_succ]; exact hnone, ?_⟩
        intro t' ht' hlt
        cases t' with
        | zero => simp [hpe]
        | succ t'' =>
          rw [List.get_cons_succ]
          exact hprev t'' (by simp at ht'; omega) (by omega)
      | ok xs =>
        rw [hrec] at h
        cases h

theorem parseRows_error_eq {ncol : ℕ} {rs : List (List Char)} {err : ParseMatrixError}
    (h : parseRows ncol rs = .error err) :
    err = .ColumnsNotAligned ∨ err = .ParseNumberError := by
  induction rs with
  | nil => cases h
  | cons r rs ih =>
    by_cases ha : (r.splitOn ',').length = ncol
    · rw [parseRows_cons_aligned ha] at h
      cases hpe : parseElems (r.splitOn ',') with
      | error e2 =>
        rw [hpe] at h
        cases h
        exact Or.inr (parseElems_error_eq hpe)
      | ok xs =>
        rw [hpe] at h
        cases hpr : parseRows ncol rs with
        | error e2 =>
          rw [hpr] at h
          cases h
          exact ih hpr
        | ok rest =>
          rw [hpr] at h
          cases h
    · rw [parseRows_cons_misaligned ha] at h
      cases h
      exact Or.inl rfl

theorem parseRows_ok_length {ncol : ℕ} {rs : List (List Char)} {data : List ℤ}
    (h : parseRows ncol rs = .ok data) : data.length = rs.length * ncol := by
  induction rs generalizing data with
  | nil =>
    cases h
    simp
  | cons r rs ih =>
    by_cases ha : (r.splitOn ',').length = ncol
    · rw [parseRows_cons_aligned ha] at h
      cases hpe : parseElems (r.splitOn ',') with
      | error e2 =>
        rw [hpe] at h
        cases h
      | ok xs =>
        rw [hpe] at h
        cases hpr : parseRows ncol rs with
        | error e2 =>
          rw [hpr] at h
          cases h
        | ok rest =>
          rw [hpr] at h
          cases h
          have h1 : xs.length = ncol := by rw [parseElems_ok_length hpe, ha]
          have h2 := ih hpr
          rw [List.length_append, h1, h2, List.length_cons, Nat.succ_mul]
          omega
    · rw [parseRows_cons_misaligned ha] at h
      cases h

theorem parseRows_ok_iff (ncol : ℕ) (rs : List (List Char)) :
    (∃ data, parseRows ncol rs = .ok data) ↔
      ∀ r ∈ rs, rowAligned ncol r ∧ rowParses r := by
  induction rs with
  | nil => simp [parseRows]
  | cons r rs ih =>
    rw [List.forall_mem_cons]
    constructor
    · rintro ⟨data, hdata⟩
      by_cases ha : (r.splitOn ',').length = ncol
      · rw [parseRows_cons_aligned ha] at hdata
        cases hpe : parseElems (r.splitOn ',') with
        | error e2 =>
          rw [hpe] at hdata
          cases hdata
        | ok xs =>
          rw [hpe] at hdata
          cases hpr : parseRows ncol rs with
          | error e2 =>
            rw [hpr] at hdata
            cases hdata
          | ok rest =>
            refine ⟨⟨ha, ?_⟩, ih.mp ⟨rest, hpr⟩⟩
            exact (parseElems_ok_iff _).mp ⟨xs, hpe⟩
      · rw [parseRows_cons_misaligned ha] at hdata
        cases hdata
    · rintro ⟨⟨ha, hp⟩, hrest⟩
      obtain ⟨xs, hxs⟩ := (parseElems_ok_iff _).mpr hp
      obtain ⟨rest, hrest'⟩ := ih.mpr hrest
      exact ⟨xs ++ rest, by rw [parseRows_cons_aligned ha, hxs, hrest']⟩

theorem parseRows_cna_first {ncol : ℕ} {rs : List (List Char)}
    (h : parseRows ncol rs = .error .ColumnsNotAligned) :
    ∃ k, firstFailIsMisalign ncol rs k := by
  induction rs with
  | nil => cases h
  | cons r rs ih =>
    by_cases ha : (r.splitOn ',').length = ncol
    · rw [parseRows_cons_aligned ha] at h
      cases hpe : parseElems (r.splitOn ',') with
      | error e2 =>
        rw [hpe] at h
        cases h
        cases parseElems_error_eq hpe
      | ok xs =>
        rw [hpe] at h
        cases hpr : parseRows ncol rs with
        | error e2 =>
          rw [hpr] at h
          cases h
          obtain ⟨k, hk, hmis, hprev⟩ := ih hpr
          refine ⟨k + 1, by simp; omega, ?_, ?_⟩
          · rw [List.get_cons_succ]
            exact hmis
          · intro k' hk' hlt
            cases k' with
            | zero =>
              refine ⟨ha, (parseElems_ok_iff _).mp ⟨xs, hpe⟩⟩
            | succ k'' =>
              rw [List.get_cons_succ]
              exact hprev k'' (by simp at hk'; omega) (by omega)
        | ok rest =>
          rw [hpr] at h
          cases h
    · refine ⟨0, by simp, ha, ?_⟩
      intro k' hk' hlt
      omega

theorem parseRows_pne_first {ncol : ℕ} {rs : List (List Char)}
    (h : parseRows ncol rs = .error .ParseNumberError) :
    ∃ k t, firstFailIsToken ncol rs k t := by
  induction rs with
  | nil => cases h
  | cons r rs ih =>
    by_cases ha : (r.splitOn ',').length = ncol
    · rw [parseRows_cons_aligned ha] at h
      cases hpe : parseElems (r.splitOn ',') with
      | error e2 =>
        rw [hpe] at h
        obtain ⟨t, ht, hnone, hprev⟩ := parseElems_error_first (by rw [hpe, parseElems_error_eq hpe])
        refine ⟨0, t, by simp, ?_, ?_, ht, hnone, hprev⟩
        · intro k' hk' hle
          have : k' = 0 := by omega
          subst this
          exact ha
        · intro k' hk' hlt
          omega
      | ok xs =>
        rw [hpe] at h
        cases hpr : parseRows ncol rs with
        | error e2 =>
          rw [hpr] at h
          cases h
          obtain ⟨k, t, hk, hal, hpar, ht, hnone, hprev⟩ := ih hpr
          refine ⟨k + 1, t, by simp; omega, ?_, ?_, ?_⟩
          · intro k' hk' hle
            cases k' with
            | zero => exact ha
            | succ k'' =>
              rw [List.get_cons_succ]
              exact hal k'' (by simp at hk'; omega) (by omega)
          · intro k' hk' hlt
            cases k' with
            | zero => exact (parseElems_ok_iff _).mp ⟨xs, hpe⟩
            | succ k'' =>
              rw [List.get_cons_succ]
              exact hpar k'' (by simp at hk'; omega) (by omega)
          · rw [List.get_cons_succ]
            exact ⟨ht, hnone, hprev⟩
        | ok rest =>
          rw [hpr] at h
          cases h
    · rw [parseRows_cons_misaligned ha] at h
      cases h

theorem splitOn_ne_nil (c : Char) (l : List Char) : l.splitOn c ≠ [] := by
  rw [List.splitOn]
  exact List.splitOnP_ne_nil _ _

theorem rowStrings_ne_nil (t : List Char) : rowStrings t ≠ [] := by
  rw [rowStrings]
  exact splitOn_ne_nil ';' (content t)

theorem fromStr_cases (s : List Char) (hb : ¬ bracketFail (trim s)) :
    fromStr s = (match parseRows (ncolOf (trim s)) (rowStrings (trim s)) with
      | .error e => .error e
      | .ok data => .ok ⟨data, (rowStrings (trim s)).length, ncolOf (trim s)⟩) := by
  simp only [fromStr]
  rw [if_neg hb]

theorem fromStr_ok_dissect {s : List Char} {m : Matrix ℤ} (h : fromStr s = .ok m) :
    ¬ bracketFail (trim s) ∧
    parseRows (ncolOf (trim s)) (rowStrings (trim s)) = .ok m.data ∧
    m.row = (rowStrings (trim s)).length ∧ m.col = ncolOf (trim s) := by
  by_cases hb : bracketFail (trim s)
  · rw [show fromStr s = .error .WrongBracketFormat by simp only [fromStr]; rw [if_pos hb]] at h
    cases h
  · rw [fromStr_cases s hb] at h
    cases hpr : parseRows (ncolOf (trim s)) (rowStrings (trim s)) with
    | error e =>
      rw [hpr] at h
      cases h
    | ok data =>
      rw [hpr] at h
      cases h
      exact ⟨hb, rfl, rfl, rfl⟩

/-! ### Claim C5 -/

/-- C5: parse failures are classified as the claim states: after trimming,
`WrongBracketFormat` exactly when the input is shorter than 2 characters or
does not both start with `[` and end with `]`; otherwise the rows are the
`;`-groups of the bracket-stripped content and the column count is the first
group's `,`-element count; a successful parse has that row and column count
and requires every row aligned and every trimmed token parseable (and
conversely); `ColumnsNotAligned` reports a first failure (left to right)
that is a misaligned row, `ParseNumberError` a first failure that is an
unparseable token. -/
theorem C5_parse_errors (s : List Char) :
    (fromStr s = .error .WrongBracketFormat ↔
      ((trim s).length < 2 ∨ (trim s).take 1 ≠ ['['] ∨
        (trim s).drop ((trim s).length - 1) ≠ [']'])) ∧
    (∀ m, fromStr s = .ok m →
      m.row = (rowStrings (trim s)).length ∧ m.col = ncolOf (trim s) ∧
      ∀ r ∈ rowStrings (trim s), rowAligned (ncolOf (trim s)) r ∧ rowParses r) ∧
    ((¬ bracketFail (trim s) ∧
      ∀ r ∈ rowStrings (trim s), rowAligned (ncolOf (trim s)) r ∧ rowParses r) →
      ∃ m, fromStr s = .ok m) ∧
    (fromStr s = .error .ColumnsNotAligned →
      ∃ k, firstFailIsMisalign (ncolOf (trim s)) (rowStrings (trim s)) k) ∧
    (fromStr s = .error .ParseNumberError →
      ∃ k t, firstFailIsToken (ncolOf (trim s)) (rowStrings (trim s)) k t) := by
  refine ⟨?_, ?_, ?_, ?_, ?_⟩
  · constructor
    · intro h
      by_contra hb
      rw [fromStr_cases s hb] at h
      cases hpr : parseRows (ncolOf (trim s)) (rowStrings (trim s)) with
      | error e =>
        rw [hpr] at h
        cases h
        rcases parseRows_error_eq hpr with h2 | h2 <;> cases h2
      | ok data =>
        rw [hpr] at h
        cases h
    · intro hb
      simp only [fromStr]
      rw [if_pos (show bracketFail (trim s) from hb)]
  · intro m h
    obtain ⟨hb, hpr, hrow, hcol⟩ := fromStr_ok_dissect h
    exact ⟨hrow, hcol, (parseRows_ok_iff _ _).mp ⟨m.data, hpr⟩⟩
  · rintro ⟨hb, hall⟩
    obtain ⟨data, hdata⟩ := (parseRows_ok_iff _ _).mpr hall
    refine ⟨⟨data, (rowStrings (trim s)).length, ncolOf (trim s)⟩, ?_⟩
    rw [fromStr_cases s hb, hdata]
  · intro h
    have hb : ¬ bracketFail (trim s) := by
      intro hb
      rw [show fromStr s = .error .WrongBracketFormat by simp only [fromStr]; rw [if_pos hb]] at h
      cases h
    rw [fromStr_cases s hb] at h
    cases hpr : parseRows (ncolOf (trim s)) (rowStrings (trim s)) with
    | error e =>
      rw [hpr] at h
      cases h
      exact parseRows_cna_first hpr
    | ok data =>
      rw [hpr] at h
      cases h
  · intro h
    have hb : ¬ bracketFail (trim s) := by
      intro hb
      rw [show fromStr s = .error .WrongBracketFormat by simp only [fromStr]; rw [if_pos hb]] at h
      cases h
    rw [fromStr_cases s hb] at h
    cases hpr : parseRows (ncolOf (trim s)) (rowStrings (trim s)) with
    | error e =>
      rw [hpr] at h
      cases h
      exact parseRows_pne_first hpr
    | ok data =>
      rw [hpr] at h
      cases h

/-- Witness for C5: one concrete input per classification case. -/
theorem C5_witness :
    fromStr "1,2,3]".toList = .error .WrongBracketFormat ∧
    (∃ m, fromStr "[1,2;3,4]".toList = .ok m) ∧
    (∃ k, firstFailIsMisalign (ncolOf (trim "[1,2;3,4,5]".toList))
      (rowStrings (trim "[1,2;3,4,5]".toList)) k) ∧
    (∃ k t, firstFailIsToken (ncolOf (trim "[1,x;2,3]".toList))
      (rowStrings (trim "[1,x;2,3]".toList)) k t) :=
  ⟨(C5_parse_errors _).1.mpr (by decide),
   (C5_parse_errors _).2.2.1 ⟨by decide, by decide⟩,
   (C5_parse_errors _).2.2.2.1 (by decide),
   (C5_parse_errors _).2.2.2.2 (by decide)⟩

/-! ### Claim C9 -/

/-- C9: every successfully parsed matrix satisfies the storage invariant and
is non-empty (`row ≥ 1`, `col ≥ 1`, `data.length = row * col`); in
particular `"[]"` fails with `ParseNumberError` rather than yielding a 0×0
matrix. -/
theorem C9_parse_invariant :
    (∀ (s : List Char) (m : Matrix ℤ), fromStr s = .ok m →
      1 ≤ m.row ∧ 1 ≤ m.col ∧ m.wf) ∧
    fromStr "[]".toList = .error .ParseNumberError := by
  constructor
  · intro s m h
    obtain ⟨hb, hpr, hrow, hcol⟩ := fromStr_ok_dissect h
    refine ⟨?_, ?_, ?_⟩
    · rw [hrow]
      have := rowStrings_ne_nil (trim s)
      cases hrs : rowStrings (trim s) with
      | nil => exact absurd hrs this
      | cons a l => simp
    · rw [hcol, ncolOf]
      have := splitOn_ne_nil ',' ((rowStrings (trim s)).headD [])
      cases hsc : ((rowStrings (trim s)).headD []).splitOn ',' with
      | nil => exact absurd hsc this
      | cons a l => simp
    · rw [Matrix.wf, hrow, hcol]
      exact parseRows_ok_length hpr
  · decide

/-- Witness for C9 at a concrete successful parse. -/
theorem C9_witness :
    1 ≤ (Matrix.mk ([1, 2, 3, 4] : List ℤ) 2 2).row ∧
    1 ≤ (Matrix.mk ([1, 2, 3, 4] : List ℤ) 2 2).col ∧
    (Matrix.mk ([1, 2, 3, 4] : List ℤ) 2 2).wf :=
  C9_parse_invariant.1 "[1,2;3,4]".toList ⟨[1, 2, 3, 4], 2, 2⟩ (by decide)

/-! ### Claim C1: round-trip machinery -/

theorem digitChar_isDigit {d : ℕ} (hd : d < 10) : (Nat.digitChar d).isDigit = true := by
  interval_cases d <;> decide

theorem digitChar_toNat {d : ℕ} (hd : d < 10) :
    (Nat.digitChar d).toNat - '0'.toNat = d := by
  interval_cases d <;> decide

theorem digitChar_not_ws {d : ℕ} (hd : d < 10) : isWs (Nat.digitChar d) = false := by
  interval_cases d <;> decide

theorem digitChar_ne_semi {d : ℕ} (hd : d < 10) : Nat.digitChar d ≠ ';' := by
  interval_cases d <;> decide

theorem digitChar_ne_comma {d : ℕ} (hd : d < 10) : Nat.digitChar d ≠ ',' := by
  interval_cases d <;> decide

theorem digitChar_ne_plus {d : ℕ} (hd : d < 10) : Nat.digitChar d ≠ '+' := by
  interval_cases d <;> decide

theorem digitChar_ne_minus {d : ℕ} (hd : d < 10) : Nat.digitChar d ≠ '-' := by
  interval_cases d <;> decide

theorem natChars_ne_nil (n : ℕ) : natChars n ≠ [] := by
  rw [natChars]
  by_cases hn : n = 0
  · rw [if_pos hn]
    simp
  · rw [if_neg hn]
    simp [Nat.digits_ne_nil_iff_ne_zero.mpr hn]

theorem natChars_mem {n : ℕ} {c : Char} (h : c ∈ natChars n) :
    ∃ d < 10, c = Nat.digitChar d := by
  rw [natChars] at h
  by_cases hn : n = 0
  · rw [if_pos hn] at h
    simp at h
    exact ⟨0, by omega, by rw [h]; rfl⟩
  · rw [if_neg hn] at h
    simp only [List.mem_map, List.mem_reverse] at h
    obtain ⟨d, hd, rfl⟩ := h
    exact ⟨d, Nat.digits_lt_base (by omega) hd, rfl⟩

theorem intChars_mem {x : ℤ} {c : Char} (h : c ∈ intChars x) :
    c = '-' ∨ ∃ d < 10, c = Nat.digitChar d := by
  rw [intChars] at h
  by_cases hx : x < 0
  · rw [if_pos hx] at h
    rcases List.mem_cons.mp h with h | h
    · exact Or.inl h
    · exact Or.inr (natChars_mem h)
  · rw [if_neg hx] at h
    exact Or.inr (natChars_mem h)

theorem intChars_ne_nil (x : ℤ) : intChars x ≠ [] := by
  rw [intChars]
  by_cases hx : x < 0
  · rw [if_pos hx]
    simp
  · rw [if_neg hx]
    exact natChars_ne_nil _

theorem intChars_not_ws {x : ℤ} {c : Char} (h : c ∈ intChars x) : isWs c = false := by
  rcases intChars_mem h with rfl | ⟨d, hd, rfl⟩
  · decide
  · exact digitChar_not_ws hd

theorem comma_not_mem_intChars (x : ℤ) : ',' ∉ intChars x := by
  intro h
  rcases intChars_mem h with h2 | ⟨d, hd, h2⟩
  · cases h2
  · exact digitChar_ne_comma hd h2.symm

theorem foldl_digits_eq (l : List ℕ) (hl : ∀ d ∈ l, d < 10) (a : ℕ) :
    (l.reverse.map Nat.digitChar).foldl (fun acc c => acc * 10 + (c.toNat - '0'.toNat)) a =
      a * 10 ^ l.length + Nat.ofDigits 10 l := by
  induction l generalizing a with
  | nil => simp
  | cons d t ih =>
    rw [List.reverse_cons, List.map_append, List.foldl_append,
      ih (fun e he => hl e (List.mem_cons_of_mem _ he))]
    simp only [List.map_cons, List.map_nil, List.foldl_cons, List.foldl_nil]
    rw [digitChar_toNat (hl d (List.mem_cons_self _ _)), Nat.ofDigits_cons, List.length_cons]
    ring

theorem parseDigits_natChars (n : ℕ) : parseDigits (natChars n) = some n := by
  by_cases hn : n = 0
  · subst hn
    decide
  · have hall : (natChars n).all Char.isDigit = true := by
      rw [List.all_eq_true]
      intro c hc
      obtain ⟨d, hd, rfl⟩ := natChars_mem hc
      exact digitChar_isDigit hd
    rw [parseDigits, if_pos ⟨natChars_ne_nil n, hall⟩]
    rw [natChars, if_neg hn,
      foldl_digits_eq _ (fun d hd => Nat.digits_lt_base (by omega) hd) 0]
    simp [Nat.ofDigits_digits]

theorem parseInt_natChars (n : ℕ) : parseInt (natChars n) = some (n : ℤ) := by
  obtain ⟨c, rest, hcr⟩ : ∃ c rest, natChars n = c :: rest := by
    cases h : natChars n with
    | nil => exact absurd h (natChars_ne_nil n)
    | cons c rest => exact ⟨c, rest, rfl⟩
  obtain ⟨d, hd, hc⟩ := natChars_mem (show c ∈ natChars n by rw [hcr]; simp)
  rw [hcr, parseInt, if_neg (by rw [hc]; exact digitChar_ne_plus hd),
    if_neg (by rw [hc]; exact digitChar_ne_minus hd), ← hcr, parseDigits_natChars]
  rfl

theorem parseInt_intChars (x : ℤ) : parseInt (intChars x) = some x := by
  rw [intChars]
  by_cases hx : x < 0
  · rw [if_pos hx, parseInt, if_neg (by decide), if_pos rfl, parseDigits_natChars]
    show some (-(x.natAbs : ℤ)) = some x
    congr 1
    omega
  · rw [if_neg hx, parseInt_natChars]
    congr 1
    omega

theorem dropWhile_eq_self_of (p : Char → Bool) (l : List Char)
    (h : ∀ c ∈ l, p c = false) : l.dropWhile p = l := by
  cases l with
  | nil => rfl
  | cons a t =>
    rw [List.dropWhile_cons, h a (by simp)]
    simp

theorem trim_eq_self {l : List Char} (h : ∀ c ∈ l, isWs c = false) : trim l = l := by
  rw [trim, dropWhile_eq_self_of _ _ h, dropWhile_eq_self_of, List.reverse_reverse]
  intro c hc
  exact h c (by simpa using hc)

theorem trim_intChars (x : ℤ) : trim (intChars x) = intChars x :=
  trim_eq_self fun c hc => intChars_not_ws hc

theorem joinSep_cons_cons (sep : List Char) (r r2 : List Char) (rs : List (List Char)) :
    joinSep sep (r :: r2 :: rs) = r ++ sep ++ joinSep sep (r2 :: rs) := by
  rfl

theorem joinSep_mem {sep : List Char} {ls : List (List Char)} {c : Char}
    (h : c ∈ joinSep sep ls) : c ∈ sep ∨ ∃ l ∈ ls, c ∈ l := by
  induction ls with
  | nil => cases h
  | cons r rs ih =>
    cases rs with
    | nil => exact Or.inr ⟨r, by simp, h⟩
    | cons r2 rs2 =>
      rw [joinSep_cons_cons] at h
      rcases List.mem_append.mp h with h2 | h2
      · rcases List.mem_append.mp h2 with h3 | h3
        · exact Or.inr ⟨r, by simp, h3⟩
        · exact Or.inl h3
      · rcases ih h2 with h3 | ⟨l, hl, hcl⟩
        · exact Or.inl h3
        · exact Or.inr ⟨l, by simp [hl], hcl⟩

/-- Splitting on the separator recovers the pieces, provided none of the
pieces contains the separator. -/
theorem splitOn_joinSep (x : Char) (ls : List (List Char)) (hne : ls ≠ [])
    (hx : ∀ l ∈ ls, x ∉ l) : (joinSep [x] ls).splitOn x = ls := by
  induction ls with
  | nil => cases hne rfl
  | cons r rs ih =>
    cases rs with
    | nil =>
      show (joinSep [x] [r]).splitOn x = [r]
      rw [show joinSep [x] [r] = r from rfl, List.splitOn]
      refine List.splitOnP_eq_single _ _ fun c hc => ?_
      simp only [beq_iff_eq]
      intro hcx
      exact hx r (by simp) (hcx ▸ hc)
    | cons r2 rs2 =>
      rw [joinSep_cons_cons,
        show r ++ [x] ++ joinSep [x] (r2 :: rs2) = r ++ x :: joinSep [x] (r2 :: rs2) by simp,
        List.splitOn,
        List.splitOnP_first _ r
          (fun c hc => by
            simp only [beq_iff_eq]
            intro hcx
            exact hx r (by simp) (hcx ▸ hc))
          x (by simp) _]
      rw [show (joinSep [x] (r2 :: rs2)).splitOnP (· == x) = (joinSep [x] (r2 :: rs2)).splitOn x
          from rfl]
      rw [ih (by simp) (fun l hl => hx l (by simp [hl]))]

theorem rowChars_mem {m : Matrix ℤ} {q : ℕ} {c : Char} (h : c ∈ rowChars m q) :
    c = ',' ∨ c = '-' ∨ ∃ d < 10, c = Nat.digitChar d := by
  rcases joinSep_mem h with h2 | ⟨l, hl, hcl⟩
  · left
    simpa using h2
  · simp only [List.mem_map, List.mem_range] at hl
    obtain ⟨j, hj, rfl⟩ := hl
    rcases intChars_mem hcl with h3 | h3
    · exact Or.inr (Or.inl h3)
    · exact Or.inr (Or.inr h3)

theorem semi_not_mem_rowChars (m : Matrix ℤ) (q : ℕ) : ';' ∉ rowChars m q := by
  intro h
  rcases rowChars_mem h with h2 | h2 | ⟨d, hd, h2⟩
  · cases h2
  · cases h2
  · exact digitChar_ne_semi hd h2.symm

theorem bodyChars_mem {m : Matrix ℤ} {c : Char} (h : c ∈ bodyChars m) :
    c = ';' ∨ c = ',' ∨ c = '-' ∨ ∃ d < 10, c = Nat.digitChar d := by
  rcases joinSep_mem h with h2 | ⟨l, hl, hcl⟩
  · left
    simpa using h2
  · simp only [List.mem_map, List.mem_range] at hl
    obtain ⟨q, hq, rfl⟩ := hl
    exact Or.inr (rowChars_mem hcl)

theorem joinSep_cons_ne_nil (sep : List Char) (r : List Char) {rs : List (List Char)}
    (h : rs ≠ []) : joinSep sep (r :: rs) = r ++ sep ++ joinSep sep rs := by
  cases rs with
  | nil => cases h rfl
  | cons a l => rfl

/-- Within one row, the `Display` loop emits the remaining `sv` entries of
row `q` joined by `,`, then the row separator (`;`, or nothing for the last
row), then the remaining rows. -/
theorem fmtBody_row (m : Matrix ℤ) (hw : m.wf) (hc : 1 ≤ m.col) {q : ℕ} (hq : q < m.row) :
    ∀ sv, 1 ≤ sv → sv ≤ m.col →
      fmtBody m (q * m.col + (m.col - sv)) =
        (joinSep [','] ((List.range sv).map fun j => intChars (m.entry q (m.col - sv + j))) ++
          (if q + 1 = m.row then [] else [';'])) ++ fmtBody m ((q + 1) * m.col) := by
  intro sv
  induction sv with
  | zero => omega
  | succ s ih =>
    intro h1 h2
    have hqc' : (q + 1) * m.col = q * m.col + m.col := by ring
    have hqc : (q + 1) * m.col ≤ m.row * m.col := Nat.mul_le_mul_right _ hq
    have hilen : q * m.col + (m.col - (s + 1)) < m.data.length := by
      rw [hw]
      omega
    rw [fmtBody, dif_pos hilen]
    by_cases hs : s = 0
    · subst hs
      have hi1 : q * m.col + (m.col - 1) + 1 = (q + 1) * m.col := by omega
      have hsep : sepChars m (q * m.col + (m.col - 1)) = if q + 1 = m.row then [] else [';'] := by
        rw [sepChars]
        have h1mod : (q * m.col + (m.col - 1) + 1) % m.col = 0 := by
          rw [hi1]
          exact Nat.mul_mod_left _ _
        rw [if_pos h1mod]
        by_cases hlast : q + 1 = m.row
        · have hrow_eq : m.row * m.col = (q + 1) * m.col := by rw [hlast]
          rw [if_pos (by rw [hw]; omega), if_pos hlast]
          rfl
        · have hq1 : q + 1 < m.row := by omega
          have hle2 : (q + 2) * m.col ≤ m.row * m.col := Nat.mul_le_mul_right _ (by omega)
          have hD : (q + 2) * m.col = (q + 1) * m.col + m.col := by ring
          rw [if_neg (by rw [hw]; omega), if_neg hlast]
          rfl
      rw [hsep, hi1]
      have hentry : m.data.getD (q * m.col + (m.col - 1)) 0 = m.entry q (m.col - 1 + 0) := by
        simp only [Matrix.entry, Nat.add_zero]
      rw [hentry]
      simp only [show List.range 1 = [0] from rfl, List.map_cons, List.map_nil]
      simp only [joinSep]
    · obtain ⟨ss, rfl⟩ : ∃ ss, s = ss + 1 := ⟨s - 1, by omega⟩
      have hi1 : q * m.col + (m.col - (ss + 1 + 1)) + 1 = q * m.col + (m.col - (ss + 1)) := by
        omega
      have hsep : sepChars m (q * m.col + (m.col - (ss + 1 + 1))) = [','] := by
        rw [sepChars]
        have h1mod : (q * m.col + (m.col - (ss + 1 + 1)) + 1) % m.col = m.col - (ss + 1) := by
          rw [hi1, Nat.add_comm (q * m.col) (m.col - (ss + 1)),
            Nat.add_mul_mod_self_right, Nat.mod_eq_of_lt (by omega)]
        rw [if_neg (by rw [h1mod]; omega), if_neg (by rw [hw]; omega)]
        rfl
      rw [hsep, hi1, ih (by omega) (by omega)]
      have hentry : m.data.getD (q * m.col + (m.col - (ss + 1 + 1))) 0 =
          m.entry q (m.col - (ss + 1 + 1) + 0) := by
        simp only [Matrix.entry, Nat.add_zero]
      rw [hentry]
      have htail : ((List.range (ss + 1)).map
          ((fun j => intChars (m.entry q (m.col - (ss + 1 + 1) + j))) ∘ Nat.succ)) =
          (List.range (ss + 1)).map fun j => intChars (m.entry q (m.col - (ss + 1) + j)) := by
        refine List.map_congr_left fun j hj => ?_
        show intChars (m.entry q (m.col - (ss + 1 + 1) + (j + 1))) =
          intChars (m.entry q (m.col - (ss + 1) + j))
        have harg : m.col - (ss + 1 + 1) + (j + 1) = m.col - (ss + 1) + j := by omega
        rw [harg]
      conv_rhs => rw [List.range_succ_eq_map, List.map_cons, List.map_map,
        joinSep_cons_ne_nil _ _ (by simp), htail]
      simp [List.append_assoc]

/-- The `Display` loop starting at the beginning of row `m.row - d` emits the
last `d` rows joined by `;`. -/
theorem fmtBody_rows (m : Matrix ℤ) (hw : m.wf) (hc : 1 ≤ m.col) :
    ∀ d, d ≤ m.row → fmtBody m ((m.row - d) * m.col) =
      joinSep [';'] ((List.range d).map fun a => rowChars m (m.row - d + a)) := by
  intro d
  induction d with
  | zero =>
    intro h
    rw [Nat.sub_zero, fmtBody, dif_neg (by rw [hw]; omega)]
    rfl
  | succ dd ih =>
    intro h
    have hq : m.row - (dd + 1) < m.row := by omega
    have heq : m.row - (dd + 1) + 1 = m.row - dd := by omega
    have hrow := fmtBody_row m hw hc hq m.col hc le_rfl
    rw [Nat.sub_self, Nat.add_zero, heq] at hrow
    simp only [Nat.zero_add] at hrow
    rw [hrow, ih (by omega)]
    by_cases hdd : dd = 0
    · subst hdd
      rw [if_pos (by omega)]
      simp only [show List.range 1 = [0] from rfl, List.map_cons, List.map_nil,
        List.range_zero]
      simp [joinSep, rowChars]
    · rw [if_neg (by omega)]
      have htail : ((List.range dd).map
          ((fun a => rowChars m (m.row - (dd + 1) + a)) ∘ Nat.succ)) =
          (List.range dd).map fun a => rowChars m (m.row - dd + a) := by
        refine List.map_congr_left fun a ha => ?_
        show rowChars m (m.row - (dd + 1) + (a + 1)) = rowChars m (m.row - dd + a)
        have harg : m.row - (dd + 1) + (a + 1) = m.row - dd + a := by omega
        rw [harg]
      conv_rhs => rw [List.range_succ_eq_map, List.map_cons, List.map_map,
        joinSep_cons_ne_nil _ _ (by simp [hdd]), htail]
      simp [rowChars, List.append_assoc]

/-- On a matrix satisfying the storage invariant with at least one column,
formatting succeeds and produces the canonical bracketed text. -/
theorem fmt_eq_canon (m : Matrix ℤ) (hw : m.wf) (hc : 1 ≤ m.col) :
    m.fmt = some ('[' :: (bodyChars m ++ [']'])) := by
  rw [Matrix.fmt, if_neg (by rintro ⟨h0, -⟩; omega)]
  have hbody : fmtBody m 0 = bodyChars m := by
    have h0 := fmtBody_rows m hw hc m.row le_rfl
    rw [Nat.sub_self, Nat.zero_mul] at h0
    simp only [Nat.zero_add] at h0
    rw [h0, bodyChars]
  rw [hbody]

theorem canon_not_ws (m : Matrix ℤ) :
    ∀ c ∈ '[' :: (bodyChars m ++ [']']), isWs c = false := by
  intro c hc
  rcases List.mem_cons.mp hc with rfl | hc2
  · decide
  · rcases List.mem_append.mp hc2 with hc3 | hc3
    · rcases bodyChars_mem hc3 with rfl | rfl | rfl | ⟨d, hd, rfl⟩
      · decide
      · decide
      · decide
      · exact digitChar_not_ws hd
    · have hcr : c = ']' := by simpa using hc3
      subst hcr
      decide

theorem canon_trim (m : Matrix ℤ) :
    trim ('[' :: (bodyChars m ++ [']'])) = '[' :: (bodyChars m ++ [']']) :=
  trim_eq_self (canon_not_ws m)

theorem canon_length (m : Matrix ℤ) :
    ('[' :: (bodyChars m ++ [']'])).length = (bodyChars m).length + 2 := by
  simp

theorem canon_bracket (m : Matrix ℤ) : ¬ bracketFail ('[' :: (bodyChars m ++ [']'])) := by
  rw [bracketFail]
  push_neg
  refine ⟨?_, rfl, ?_⟩
  · rw [canon_length]
    omega
  · rw [canon_length]
    have h2 : (bodyChars m).length + 2 - 1 = (bodyChars m).length + 1 := by omega
    rw [h2, List.drop_succ_cons]
    exact List.drop_left _ _

theorem canon_rowStrings (m : Matrix ℤ) (hr : 1 ≤ m.row) :
    rowStrings ('[' :: (bodyChars m ++ [']'])) = (List.range m.row).map (rowChars m) := by
  have hx : ∀ l ∈ (List.range m.row).map (rowChars m), ';' ∉ l := by
    intro l hl
    simp only [List.mem_map, List.mem_range] at hl
    obtain ⟨q, hq, rfl⟩ := hl
    exact semi_not_mem_rowChars m q
  rw [rowStrings, content, canon_length]
  have h1 : (bodyChars m).length + 2 - 2 = (bodyChars m).length := by omega
  rw [h1, show List.drop 1 ('[' :: (bodyChars m ++ [']'])) = bodyChars m ++ [']'] from rfl,
    List.take_left, bodyChars]
  exact splitOn_joinSep ';' _ (by simp; omega) hx

theorem canon_ncol (m : Matrix ℤ) (hr : 1 ≤ m.row) (hc : 1 ≤ m.col) :
    ncolOf ('[' :: (bodyChars m ++ [']'])) = m.col := by
  have hx : ∀ l ∈ (List.range m.col).map fun j => intChars (m.entry 0 j), ',' ∉ l := by
    intro l hl
    simp only [List.mem_map, List.mem_range] at hl
    obtain ⟨j, hj, rfl⟩ := hl
    exact comma_not_mem_intChars _
  rw [ncolOf, canon_rowStrings m hr]
  obtain ⟨rr, hrr⟩ : ∃ rr, m.row = rr + 1 := ⟨m.row - 1, by omega⟩
  rw [hrr, List.range_succ_eq_map, List.map_cons,
    show ((rowChars m 0 :: (List.map Nat.succ (List.range rr)).map (rowChars m)).headD []) =
      rowChars m 0 from rfl,
    rowChars, splitOn_joinSep ',' _ (by simp; omega) hx]
  simp

theorem parseElems_intChars (vs : List ℤ) :
    parseElems (vs.map intChars) = .ok vs := by
  induction vs with
  | nil => rfl
  | cons v vs ih =>
    rw [List.map_cons,
      parseElems_cons_some (by rw [trim_intChars, parseInt_intChars]), ih]

theorem parseRows_canon (m : Matrix ℤ) (hc : 1 ≤ m.col) (Q : List ℕ) :
    parseRows m.col (Q.map (rowChars m)) =
      .ok (Q.flatMap fun q => (List.range m.col).map fun j => m.entry q j) := by
  induction Q with
  | nil => rfl
  | cons q Q ih =>
    have hsplit : (rowChars m q).splitOn ',' =
        (List.range m.col).map fun j => intChars (m.entry q j) := by
      rw [rowChars]
      refine splitOn_joinSep ',' _ (by simp; omega) ?_
      intro l hl
      simp only [List.mem_map, List.mem_range] at hl
      obtain ⟨j, hj, rfl⟩ := hl
      exact comma_not_mem_intChars _
    rw [List.map_cons, parseRows_cons_aligned (by rw [hsplit]; simp), hsplit,
      show ((List.range m.col).map fun j => intChars (m.entry q j)) =
        ((List.range m.col).map fun j => m.entry q j).map intChars by
        simp [List.map_map, Function.comp],
      parseElems_intChars, ih, List.flatMap_cons]

theorem range_map_getD (l : List ℤ) : ∀ (n off : ℕ), off + n ≤ l.length →
    (List.range n).map (fun j => l.getD (off + j) 0) = (l.drop off).take n := by
  intro n
  induction n with
  | zero =>
    intro off h
    simp
  | succ k ih =>
    intro off h
    rw [List.range_succ_eq_map, List.map_cons, List.map_map]
    have hoff : off < l.length := by omega
    rw [List.drop_eq_getElem_cons hoff, List.take_succ_cons]
    congr 1
    · show l.getD (off + 0) 0 = l[off]
      rw [Nat.add_zero, List.getD_eq_getElem _ _ hoff]
    · rw [← ih (off + 1) (by omega)]
      refine List.map_congr_left fun j hj => ?_
      show l.getD (off + (j + 1)) 0 = l.getD (off + 1 + j) 0
      have harg : off + (j + 1) = off + 1 + j := by omega
      rw [harg]

theorem entries_flatMap (m : Matrix ℤ) (hw : m.wf) :
    ((List.range m.row).flatMap fun q => (List.range m.col).map fun j => m.entry q j)
      = m.data := by
  have key : ∀ R, R ≤ m.row →
      ((List.range R).flatMap fun q => (List.range m.col).map fun j => m.entry q j)
        = m.data.take (R * m.col) := by
    intro R
    induction R with
    | zero =>
      intro h
      simp
    | succ k ih =>
      intro h
      have hkc : (k + 1) * m.col = k * m.col + m.col := by ring
      have hklen : k * m.col + m.col ≤ m.data.length := by
        rw [hw]
        have := Nat.mul_le_mul_right m.col h
        omega
      rw [List.range_succ, List.flatMap_append, ih (by omega)]
      simp only [List.flatMap_cons, List.flatMap_nil, List.append_nil]
      rw [show (fun j => m.entry k j) = (fun j => m.data.getD (k * m.col + j) 0) from rfl,
        range_map_getD m.data m.col (k * m.col) hklen, hkc, List.take_add]
  have hfin := key m.row le_rfl
  rw [hfin, ← hw, List.take_length]

/-- C1 (amended: the matrix must be non-empty, `row ≥ 1` and `col ≥ 1` —
see `C1_counterexample`): for every non-empty matrix satisfying the storage
invariant, formatting succeeds and parsing the formatted string returns an
equal matrix: `parse(format(m)) == Ok(m)`.  (Integer elements always format
without embedded separators or surrounding whitespace.) -/
theorem C1_roundtrip (m : Matrix ℤ) (hw : m.wf) (hr : 1 ≤ m.row) (hc : 1 ≤ m.col) :
    ∃ s, m.fmt = some s ∧ fromStr s = .ok m := by
  refine ⟨'[' :: (bodyChars m ++ [']']), fmt_eq_canon m hw hc, ?_⟩
  have hb : ¬ bracketFail (trim ('[' :: (bodyChars m ++ [']']))) := by
    rw [canon_trim m]
    exact canon_bracket m
  rw [fromStr_cases _ hb, canon_trim m, canon_ncol m hr hc, canon_rowStrings m hr,
    parseRows_canon m hc (List.range m.row), entries_flatMap m hw]
  simp

/-- C1 counterexample: the 0×0 matrix satisfies the storage invariant and
(vacuously) the element-formatting side condition, formats as `[]`, but
parsing `[]` fails with `ParseNumberError` instead of returning the matrix. -/
theorem C1_counterexample :
    (Matrix.mk ([] : List ℤ) 0 0).wf ∧
    (Matrix.mk ([] : List ℤ) 0 0).fmt = some "[]".toList ∧
    fromStr "[]".toList = .error .ParseNumberError := by
  refine ⟨by decide, ?_, by decide⟩
  rw [Matrix.fmt, if_neg (by simp), fmtBody, dif_neg (by simp)]
  rfl

/-- Witness for C1 at the concrete 2×3 matrix of the crate's tests. -/
theorem C1_witness :
    ∃ s, (Matrix.mk ([-2, -1, 0, 1, 2, 3] : List ℤ) 2 3).fmt = some s ∧
      fromStr s = .ok (Matrix.mk ([-2, -1, 0, 1, 2, 3] : List ℤ) 2 3) :=
  C1_roundtrip ⟨[-2, -1, 0, 1, 2, 3], 2, 3⟩ (by decide) (by decide) (by decide)

end MatrixR
